import Mathlib

/-!
Verification development for the ssq-bayes-predictor repository.

The algorithmic core of the repository is the script `ssq_bayes_predict.py`
(historical-draw loading, Bayesian posterior estimation with additive
smoothing, top/sample candidate generation, log-likelihood scoring, and the
"Nash re-bargaining" competitive elimination).  That script is not present in
the source tree available here (only its README and the surrounding
`lottery-simulator` frontend are), so the core components are modelled from
the specification, faithful to its words; each such definition's doc comment
says so.  The `NumberSelector` React component, whose source is present, is
embedded directly from the code.
-/

namespace Ssq

/-- A raw historical record as read from the tabular dataset: a period
identifier, the list of primary numbers, one secondary number and a draw
date.  Modelled from the spec: §6 external input format. -/
structure RawRecord where
  period : String
  primary : List Nat
  secondary : Nat
  date : String
deriving DecidableEq

/-- A validated historical draw record (primary numbers sorted ascending for
display).  Modelled from the spec: §3 DrawRecord. -/
structure DrawRecord where
  period : String
  primary : List Nat
  secondary : Nat
  date : String
deriving DecidableEq

/-- The error taxonomy of §7.  Modelled from the spec: the offending-record
message carried by `dataFormatError` in the real system is omitted, as no
claim concerns it. -/
inductive SsqError where
  | dataFormatError : SsqError
  | emptyDatasetError : SsqError
  | invalidPoolError : SsqError
deriving DecidableEq

/-- Modelled from the spec: §4.1 record validity — a record is valid unless
it has fewer than 6 distinct primary numbers, a primary number outside
[1,33], or a secondary number outside [1,16]. -/
def validRecord (r : RawRecord) : Bool :=
  6 ≤ r.primary.dedup.length &&
  r.primary.all (fun n => 1 ≤ n && n ≤ 33) &&
  (1 ≤ r.secondary && r.secondary ≤ 16)

/-- Modelled from the spec: §4.1 HistoricalDrawStore.load — a malformed
record is fatal (`dataFormatError`); an empty dataset is fatal
(`emptyDatasetError`); otherwise every record is materialized with its
primary numbers sorted ascending for display. -/
def load (rs : List RawRecord) : Except SsqError (List DrawRecord) :=
  if rs.all validRecord then
    if rs.isEmpty then .error .emptyDatasetError
    else .ok (rs.map fun r =>
      { period := r.period
        primary := r.primary.insertionSort (· ≤ ·)
        secondary := r.secondary
        date := r.date })
  else .error .dataFormatError

/-- Modelled from the spec: §4.2 — c(n), the count of draws in which `n`
appears among the 6 primary numbers. -/
def primaryCount (records : List DrawRecord) (n : Nat) : Nat :=
  (records.filter (fun r => n ∈ r.primary)).length

/-- Modelled from the spec: §4.2 — the count of draws whose secondary number
is `k`. -/
def secondaryCount (records : List DrawRecord) (k : Nat) : Nat :=
  (records.filter (fun r => r.secondary = k)).length

/-- Modelled from the spec: §3 PosteriorDistribution — two independent
finite distributions, one over the 33-number primary pool and one over the
16-number secondary pool. -/
structure PosteriorDistribution where
  primary : Nat → ℚ
  secondary : Nat → ℚ

/-- Modelled from the spec: §4.2 PosteriorEstimator.estimate —
p(n) = (c(n) + α) / (Σ_m c(m) + 33·α) on the primary pool and the symmetric
computation with a 16·α denominator on the secondary pool. -/
def estimate (a : ℚ) (records : List DrawRecord) : PosteriorDistribution :=
  let totalP : ℚ := ∑ m ∈ Finset.Icc 1 33, (primaryCount records m : ℚ)
  let totalS : ℚ := ∑ m ∈ Finset.Icc 1 16, (secondaryCount records m : ℚ)
  { primary := fun n => ((primaryCount records n : ℚ) + a) / (totalP + 33 * a)
    secondary := fun k => ((secondaryCount records k : ℚ) + a) / (totalS + 16 * a) }

/-- Modelled from the spec: §3 Candidate — one proposed play, 6 primary
numbers plus 1 secondary number (provenance tag and scores are carried
separately by the selector's entries). -/
structure Candidate where
  primary : List Nat
  secondary : Nat
deriving DecidableEq

/-- Modelled from the spec: §4.3 top-mode ranking — `n` ranks at least as
high as `m` when p(n) is larger, with ties broken by the smaller numeric
value first. -/
def topOrder (p : Nat → ℚ) (n m : Nat) : Prop :=
  p m < p n ∨ (p n = p m ∧ n ≤ m)

instance topOrderDec (p : Nat → ℚ) : DecidableRel (topOrder p) :=
  fun n m => inferInstanceAs (Decidable (p m < p n ∨ (p n = p m ∧ n ≤ m)))

/-- The full primary pool 1..33. -/
def primaryPool : List Nat := (List.range 33).map (· + 1)

/-- The full secondary pool 1..16. -/
def secondaryPool : List Nat := (List.range 16).map (· + 1)

/-- Modelled from the spec: §4.3 top mode, primary part — the 6
highest-probability primary numbers, ties broken by the smaller numeric
value, rendered ascending (§6). -/
def topPrimary (p : Nat → ℚ) : List Nat :=
  ((primaryPool.insertionSort (topOrder p)).take 6).insertionSort (· ≤ ·)

/-- Modelled from the spec: §4.3 top mode, secondary part — the single
highest-probability secondary number, same tie-break. -/
def topSecondary (q : Nat → ℚ) : Nat :=
  (secondaryPool.insertionSort (topOrder q)).headD 1

/-- Modelled from the spec: §4.3 CandidateGenerator "top" mode. -/
def buildTop (post : PosteriorDistribution) : Candidate :=
  { primary := topPrimary post.primary
    secondary := topSecondary post.secondary }

/-- Modelled from the spec: §4.3 — the single seeded pseudo-random
generator; a linear congruential step standing in for the source's PRNG,
which is not observable here. -/
def lcgNext (s : Nat) : Nat := (s * 1103515245 + 12345) % 2 ^ 31

/-- Advance the generator once and view its state as a rational in [0,1). -/
def randStep (s : Nat) : Nat × ℚ :=
  let s' := lcgNext s
  (s', (s' : ℚ) / 2 ^ 31)

/-- Modelled from the spec: §9 cumulative-weight renormalization — walk the
remaining numbers accumulating weight and pick the first whose cumulative
weight exceeds the target (the last element as a numeric-safety fallback). -/
def pickByWeight (p : Nat → ℚ) (target : ℚ) : List Nat → Nat
  | [] => 0
  | [n] => n
  | n :: m :: rest => if target < p n then n else pickByWeight p (target - p n) (m :: rest)

/-- Modelled from the spec: §4.3 weighted sampling without replacement —
repeatedly draw one number with probability proportional to its remaining
weight among the not-yet-chosen numbers, removing each chosen number. -/
def sampleWithoutReplacement (p : Nat → ℚ) : Nat → List Nat → Nat → List Nat × Nat
  | 0, _, s => ([], s)
  | k + 1, remaining, s =>
    let (s', u) := randStep s
    let total := (remaining.map p).sum
    let n := pickByWeight p (u * total) remaining
    let (rest, s'') := sampleWithoutReplacement p k (remaining.erase n) s'
    (n :: rest, s'')

/-- Modelled from the spec: §4.3 sample mode, one candidate — 6 primary
numbers sampled without replacement, then 1 secondary number sampled from
the full 16-number posterior; primary numbers rendered ascending (§6). -/
def buildSampleOne (post : PosteriorDistribution) (s : Nat) : Candidate × Nat :=
  let (prim, s') := sampleWithoutReplacement post.primary 6 primaryPool s
  let (s'', u) := randStep s'
  let sec := pickByWeight post.secondary (u * (secondaryPool.map post.secondary).sum) secondaryPool
  ({ primary := prim.insertionSort (· ≤ ·), secondary := sec }, s'')

/-- Modelled from the spec: §4.3 sample mode — `count` candidates in
sequence, all randomness threaded through the single generator state. -/
def buildSampleAux (post : PosteriorDistribution) : Nat → Nat → List Candidate
  | 0, _ => []
  | k + 1, s =>
    let (c, s') := buildSampleOne post s
    c :: buildSampleAux post k s'

/-- Modelled from the spec: §4.3 sample-mode build — the generator is
initialized once from `seed` and drives the whole run. -/
def buildSample (post : PosteriorDistribution) (count : Nat) (seed : Nat) : List Candidate :=
  buildSampleAux post count seed

/-- A candidate is well-formed when it has 6 pairwise-distinct primary
numbers in [1,33] and a secondary number in [1,16] (§3 Candidate
invariant). -/
def validCandidate (c : Candidate) : Prop :=
  c.primary.Nodup ∧ c.primary.length = 6 ∧
  (∀ n ∈ c.primary, 1 ≤ n ∧ n ≤ 33) ∧ 1 ≤ c.secondary ∧ c.secondary ≤ 16

instance validCandidateDec (c : Candidate) : Decidable (validCandidate c) := by
  unfold validCandidate
  infer_instance

/-- Modelled from the spec: §4.4 UtilityScorer.score —
log_likelihood = Σ_{n in primary} ln p(n) + ln p(secondary). -/
noncomputable def score (post : PosteriorDistribution) (c : Candidate) : ℝ :=
  (c.primary.map fun n => Real.log (post.primary n)).sum +
    Real.log (post.secondary c.secondary)

/-- Modelled from the spec: §4.5 — the number of primary numbers candidate
`a` shares with candidate `b` (|primary(a) ∩ primary(b)| when the primary
lists are duplicate-free). -/
def overlap (a b : Candidate) : Nat :=
  (a.primary.filter (fun n => n ∈ b.primary)).length

/-- One candidate in the selector's pool: its index in generation order
(`0` for the top candidate, then the samples in generation sequence), the
candidate itself, and its intrinsic log-likelihood.  The score type is
abstract: the selector only ever compares and combines scores, so it is
stated over any linear ordered field. -/
structure Entry (α : Type) where
  idx : Nat
  cand : Candidate
  ll : α
deriving DecidableEq

variable {α : Type} [LinearOrderedField α]

/-- Modelled from the spec: §4.5 overlap penalty — the total count of
shared primary numbers with every other currently active candidate. -/
def overlapPenalty (active : List (Entry α)) (e : Entry α) : Nat :=
  ((active.filter (fun f => f.idx ≠ e.idx)).map (fun f => overlap e.cand f.cand)).sum

/-- Modelled from the spec: §4.5 adjusted utility —
U(i) = log_likelihood(i) − β · overlap_penalty(i). -/
def utility (b : α) (active : List (Entry α)) (e : Entry α) : α :=
  e.ll - b * (overlapPenalty active e : α)

/-- Fold selecting the entry to eliminate: the challenger replaces the
champion when its utility is strictly smaller, or equal with a larger
index in generation order (so the earlier-generated candidate survives a
tie). -/
def pickElim (u : Entry α → α) : Entry α → List (Entry α) → Entry α
  | e, [] => e
  | e, f :: rest =>
    if u f < u e ∨ (u f = u e ∧ e.idx < f.idx) then pickElim u f rest
    else pickElim u e rest

/-- Modelled from the spec: §4.5 step 4 — the candidate with minimum
adjusted utility, ties resolved by eliminating the larger index. -/
def elimChoice (b : α) (active : List (Entry α)) : Option (Entry α) :=
  match active with
  | [] => none
  | e :: rest => some (pickElim (utility b active) e rest)

/-- Modelled from the spec: §4.5 step 5 — remove the eliminated candidate
from the active pool. -/
def eliminateOnce (b : α) (active : List (Entry α)) : List (Entry α) :=
  match elimChoice b active with
  | none => active
  | some e => active.eraseP (fun f => f = e)

/-- Modelled from the spec: §4.5 steps 2–5 — run elimination rounds while
more than one candidate is active (fuelled by the round budget). -/
def selectRounds (b : α) : Nat → List (Entry α) → List (Entry α)
  | 0, active => active
  | fuel + 1, active =>
    if active.length ≤ 1 then active
    else selectRounds b fuel (eliminateOnce b active)

/-- Modelled from the spec: §4.5 CompetitiveSelector — an empty pool is a
programming error (`invalidPoolError`); otherwise eliminate until one
candidate remains and report it with the U(i) value computed in the round
it became sole survivor. -/
def competitiveSelect (b : α) (pool : List (Entry α)) : Except SsqError (Entry α × α) :=
  if pool.isEmpty then .error .invalidPoolError
  else
    match selectRounds b pool.length pool with
    | [w] => .ok (w, utility b [w] w)
    | _ => .error .invalidPoolError

/-- Replace an entry's candidate's secondary number, leaving the index,
the primary numbers and the stored log-likelihood unchanged (used to state
that the secondary number never contributes to the overlap penalty). -/
def setSec (e : Entry α) (k : Nat) : Entry α :=
  { e with cand := { e.cand with secondary := k } }

end Ssq

namespace NumberSelector

/-- The red-ball grid 01..33 of `NumberSelector.tsx` (`redNumbers`). -/
def redNumbers : List Nat := (List.range 33).map (· + 1)

/-- The blue-ball grid 01..16 of `NumberSelector.tsx` (`blueNumbers`). -/
def blueNumbers : List Nat := (List.range 16).map (· + 1)

/-- The component's selection state: `redBalls` and `blueBall` of
`NumberSelector.tsx`. -/
structure SelState where
  redBalls : List Nat
  blueBall : Option Nat
deriving DecidableEq

/-- The initial state used by `LotteryPage`: nothing selected. -/
def initState : SelState := { redBalls := [], blueBall := none }

/-- One user interaction with the component.  `quickPick` carries the
shuffled red list produced by the randomized comparator sort and the random
blue index, since randomness is an input to the embedding. -/
inductive Action where
  | redClick : Nat → Action
  | blueClick : Nat → Action
  | quickPick : List Nat → Nat → Action
  | clear : Action
deriving DecidableEq

/-- Which actions the component can actually emit: clicks come from the
rendered grids, the quick-pick shuffle is a permutation of `redNumbers`
and its blue index is `Math.floor(Math.random() * 16) < 16`. -/
def ValidAction : Action → Prop
  | .redClick n => n ∈ redNumbers
  | .blueClick n => n ∈ blueNumbers
  | .quickPick sh bi => sh.Perm redNumbers ∧ bi < 16
  | .clear => True

instance : DecidablePred ValidAction := by
  intro a
  cases a <;> simp only [ValidAction] <;> infer_instance

/-- `handleRedBallClick` of `NumberSelector.tsx`: deselect if already
selected; refuse a seventh selection; otherwise append and sort
ascending. -/
def redBallClick (n : Nat) (s : SelState) : SelState :=
  if n ∈ s.redBalls then { s with redBalls := s.redBalls.filter (fun m => m ≠ n) }
  else if 6 ≤ s.redBalls.length then s
  else { s with redBalls := (s.redBalls ++ [n]).insertionSort (· ≤ ·) }

/-- `handleBlueBallClick` of `NumberSelector.tsx`: toggle the blue ball. -/
def blueBallClick (n : Nat) (s : SelState) : SelState :=
  { s with blueBall := if s.blueBall = some n then none else some n }

/-- `handleQuickPick` of `NumberSelector.tsx`: take 6 of the shuffled red
numbers sorted ascending, and index the blue grid at the random index. -/
def quickPick (sh : List Nat) (bi : Nat) (s : SelState) : SelState :=
  { s with
    redBalls := (sh.take 6).insertionSort (· ≤ ·)
    blueBall := some (blueNumbers.getD bi 1) }

/-- `handleClear` of `NumberSelector.tsx`. -/
def clear (s : SelState) : SelState := { s with redBalls := [], blueBall := none }

/-- One interaction step; every handler returns the state unchanged when the
component is disabled. -/
def step (disabled : Bool) (a : Action) (s : SelState) : SelState :=
  if disabled then s
  else
    match a with
    | .redClick n => redBallClick n s
    | .blueClick n => blueBallClick n s
    | .quickPick sh bi => quickPick sh bi s
    | .clear => clear s

/-- A whole interaction sequence, earliest action first. -/
def run (disabled : Bool) (acts : List Action) (s : SelState) : SelState :=
  acts.foldl (fun t a => step disabled a t) s

/-- The selection invariant claimed for the component: red balls pairwise
distinct, sorted ascending, at most 6, and the blue ball unset or a single
number in [1,16]. -/
def Inv (s : SelState) : Prop :=
  s.redBalls.Nodup ∧ s.redBalls.Sorted (· ≤ ·) ∧ s.redBalls.length ≤ 6 ∧
    ∀ b, s.blueBall = some b → 1 ≤ b ∧ b ≤ 16

end NumberSelector

namespace Ssq

/-- A small concrete dataset used by the closed witnesses. -/
def sampleRecords : List DrawRecord :=
  [{ period := "2024001", primary := [2, 6, 9, 14, 17, 22], secondary := 16, date := "2024-01-01" },
   { period := "2024002", primary := [6, 11, 13, 23, 25, 32], secondary := 8, date := "2024-01-04" }]

/-- A concrete posterior used by the closed witnesses (probability mass
increasing with the number, so the top candidate is forced). -/
def wPost : PosteriorDistribution :=
  { primary := fun n => (n : ℚ), secondary := fun k => (k : ℚ) }

/-- Witness fixtures: two candidates and three selector entries. -/
def wCand1 : Candidate := { primary := [1, 2, 3, 4, 5, 6], secondary := 7 }

def wCand2 : Candidate := { primary := [1, 2, 3, 4, 5, 10], secondary := 8 }

def wEntry0 : Entry ℚ := { idx := 0, cand := wCand1, ll := -5 }

def wEntry1 : Entry ℚ := { idx := 1, cand := wCand1, ll := -5 }

def wEntry2 : Entry ℚ := { idx := 2, cand := wCand2, ll := -7 }

theorem primaryCount_le_total (records : List DrawRecord) {n : Nat} (hn : n ∈ Finset.Icc 1 33) :
    (primaryCount records n : ℚ) ≤ ∑ m ∈ Finset.Icc 1 33, (primaryCount records m : ℚ) :=
  Finset.single_le_sum (f := fun m => (primaryCount records m : ℚ)) (fun m _ => by positivity) hn

theorem totalPrimary_nonneg (records : List DrawRecord) :
    (0 : ℚ) ≤ ∑ m ∈ Finset.Icc 1 33, (primaryCount records m : ℚ) :=
  Finset.sum_nonneg fun m _ => by positivity

theorem totalSecondary_nonneg (records : List DrawRecord) :
    (0 : ℚ) ≤ ∑ m ∈ Finset.Icc 1 16, (secondaryCount records m : ℚ) :=
  Finset.sum_nonneg fun m _ => by positivity

/-- C1:  For every valid non-empty historical dataset and smoothing
constant α > 0, the estimator's two distributions give every number a
strictly positive probability, the primary distribution sums to 1.0 within
1e-9, and the probabilities are exactly the additive-smoothing formulas
p(n) = (c(n) + α) / (Σ_m c(m) + 33·α) and, on the secondary pool,
(c(k) + α) / (Σ_m c(m) + 16·α). -/
theorem estimate_positive_and_normalized (a : ℚ) (records : List DrawRecord)
    (ha : 0 < a) (_hne : records ≠ []) :
    (∀ n ∈ Finset.Icc 1 33, 0 < (estimate a records).primary n) ∧
    (∀ k ∈ Finset.Icc 1 16, 0 < (estimate a records).secondary k) ∧
    |(∑ n ∈ Finset.Icc 1 33, (estimate a records).primary n) - 1| ≤ 1 / 1000000000 ∧
    (∀ n, (estimate a records).primary n =
      ((primaryCount records n : ℚ) + a) /
        ((∑ m ∈ Finset.Icc 1 33, (primaryCount records m : ℚ)) + 33 * a)) ∧
    (∀ k, (estimate a records).secondary k =
      ((secondaryCount records k : ℚ) + a) /
        ((∑ m ∈ Finset.Icc 1 16, (secondaryCount records m : ℚ)) + 16 * a)) := by
  have hTP := totalPrimary_nonneg records
  have hTS := totalSecondary_nonneg records
  have hdenP : 0 < (∑ m ∈ Finset.Icc 1 33, (primaryCount records m : ℚ)) + 33 * a := by
    nlinarith
  have hdenS : 0 < (∑ m ∈ Finset.Icc 1 16, (secondaryCount records m : ℚ)) + 16 * a := by
    nlinarith
  refine ⟨?_, ?_, ?_, fun n => rfl, fun k => rfl⟩
  · intro n _
    exact div_pos (by positivity) hdenP
  · intro k _
    exact div_pos (by positivity) hdenS
  · have hsum : (∑ n ∈ Finset.Icc 1 33, (estimate a records).primary n) = 1 := by
      show (∑ n ∈ Finset.Icc 1 33,
        ((primaryCount records n : ℚ) + a) /
          ((∑ m ∈ Finset.Icc 1 33, (primaryCount records m : ℚ)) + 33 * a)) = 1
      rw [← Finset.sum_div, div_eq_one_iff_eq (ne_of_gt hdenP)]
      rw [Finset.sum_add_distrib, Finset.sum_const, Nat.card_Icc]
      norm_num
    rw [hsum]
    norm_num

instance topOrderTotal (p : Nat → ℚ) : IsTotal Nat (topOrder p) := by
  constructor
  intro x y
  rcases lt_trichotomy (p x) (p y) with h | h | h
  · exact Or.inr (Or.inl h)
  · rcases le_total x y with hxy | hxy
    · exact Or.inl (Or.inr ⟨h, hxy⟩)
    · exact Or.inr (Or.inr ⟨h.symm, hxy⟩)
  · exact Or.inl (Or.inl h)

instance topOrderTrans (p : Nat → ℚ) : IsTrans Nat (topOrder p) := by
  constructor
  intro x y z hxy hyz
  rcases hxy with h1 | ⟨h1, h1n⟩ <;> rcases hyz with h2 | ⟨h2, h2n⟩
  · exact Or.inl (h2.trans h1)
  · exact Or.inl (h2 ▸ h1)
  · exact Or.inl (h1 ▸ h2)
  · exact Or.inr ⟨h1.trans h2, h1n.trans h2n⟩

theorem mem_primaryPool {m : Nat} : m ∈ primaryPool ↔ 1 ≤ m ∧ m ≤ 33 := by
  simp only [primaryPool, List.mem_map, List.mem_range]
  constructor
  · rintro ⟨a, ha, rfl⟩
    omega
  · intro h
    exact ⟨m - 1, by omega, by omega⟩

theorem mem_secondaryPool {m : Nat} : m ∈ secondaryPool ↔ 1 ≤ m ∧ m ≤ 16 := by
  simp only [secondaryPool, List.mem_map, List.mem_range]
  constructor
  · rintro ⟨a, ha, rfl⟩
    omega
  · intro h
    exact ⟨m - 1, by omega, by omega⟩

theorem primaryPool_nodup : primaryPool.Nodup :=
  (List.nodup_range 33).map fun _ _ => by omega

theorem secondaryPool_nodup : secondaryPool.Nodup :=
  (List.nodup_range 16).map fun _ _ => by omega

/-- Elements kept by `take` in a sorted list rank at least as high as every
dropped element. -/
theorem take_rel_drop {r : Nat → Nat → Prop} {l : List Nat} (hs : l.Sorted r) (j : Nat)
    {x y : Nat} (hx : x ∈ l.take j) (hy : y ∈ l.drop j) : r x y := by
  have hs' : List.Pairwise r (l.take j ++ l.drop j) := by
    rw [List.take_append_drop]
    exact hs
  exact (List.pairwise_append.mp hs').2.2 x hx y hy

/-- Closed witness for C1 at α = 1 over the concrete sample dataset. -/
theorem estimate_positive_and_normalized_witness :
    (0 : ℚ) < 1 ∧ sampleRecords ≠ [] ∧ 0 < (estimate 1 sampleRecords).primary 5 :=
  ⟨by norm_num, by simp [sampleRecords],
    (estimate_positive_and_normalized 1 sampleRecords (by norm_num)
      (by simp [sampleRecords])).1 5 (by decide)⟩

theorem buildTop_primary (post : PosteriorDistribution) :
    (buildTop post).primary = topPrimary post.primary := by
  simp only [buildTop]

theorem buildTop_secondary (post : PosteriorDistribution) :
    (buildTop post).secondary = topSecondary post.secondary := by
  simp only [buildTop]

/-- Membership in the top candidate's primary list is membership in the
first six entries of the pool sorted by `topOrder`. -/
theorem mem_topPrimary (p : Nat → ℚ) {n : Nat} :
    n ∈ topPrimary p ↔ n ∈ (primaryPool.insertionSort (topOrder p)).take 6 := by
  unfold topPrimary
  exact List.mem_insertionSort _

/-- C6:  Top-mode build returns six pairwise-distinct primary numbers
that rank above every other pool number under p(n) with ties broken by the
smaller numeric value, a secondary number ranking above every other
secondary pool number the same way, and is deterministic. -/
theorem buildTop_selects_highest (post : PosteriorDistribution) (n m k : Nat)
    (hn : n ∈ (buildTop post).primary)
    (hm1 : 1 ≤ m) (hm2 : m ≤ 33) (hm : m ∉ (buildTop post).primary)
    (hk1 : 1 ≤ k) (hk2 : k ≤ 16) (hk : k ≠ (buildTop post).secondary) :
    (buildTop post).primary.length = 6 ∧ (buildTop post).primary.Nodup ∧
    (post.primary m < post.primary n ∨ (post.primary n = post.primary m ∧ n < m)) ∧
    (post.secondary k < post.secondary (buildTop post).secondary ∨
      (post.secondary (buildTop post).secondary = post.secondary k ∧
        (buildTop post).secondary < k)) ∧
    buildTop post = buildTop post := by
  rw [buildTop_primary] at hn hm ⊢
  rw [buildTop_secondary] at hk ⊢
  have permP : List.Perm (primaryPool.insertionSort (topOrder post.primary)) primaryPool :=
    List.perm_insertionSort _ _
  have lenP : (primaryPool.insertionSort (topOrder post.primary)).length = 33 := by
    rw [List.length_insertionSort]
    rfl
  have sortP : (primaryPool.insertionSort (topOrder post.primary)).Sorted
      (topOrder post.primary) := List.sorted_insertionSort _ _
  have permTake : List.Perm (topPrimary post.primary)
      ((primaryPool.insertionSort (topOrder post.primary)).take 6) :=
    List.perm_insertionSort _ _
  refine ⟨?_, ?_, ?_, ?_, rfl⟩
  · rw [permTake.length_eq, List.length_take, lenP]
    rfl
  · have hnd : (primaryPool.insertionSort (topOrder post.primary)).Nodup :=
      permP.nodup_iff.mpr primaryPool_nodup
    exact permTake.nodup_iff.mpr ((List.take_sublist _ _).nodup hnd)
  · have hmem : m ∈ primaryPool.insertionSort (topOrder post.primary) :=
      permP.mem_iff.mpr (mem_primaryPool.mpr ⟨hm1, hm2⟩)
    have hmdrop : m ∈ (primaryPool.insertionSort (topOrder post.primary)).drop 6 := by
      have := (List.take_append_drop 6
        (primaryPool.insertionSort (topOrder post.primary))) ▸ hmem
      rcases List.mem_append.mp this with h | h
      · exact absurd ((mem_topPrimary post.primary).mpr h) hm
      · exact h
    have hrel : topOrder post.primary n m :=
      take_rel_drop sortP 6 ((mem_topPrimary post.primary).mp hn) hmdrop
    have hne : n ≠ m := fun h => hm (h ▸ hn)
    rcases hrel with h | ⟨h, hle⟩
    · exact Or.inl h
    · exact Or.inr ⟨h, lt_of_le_of_ne hle hne⟩
  · have permS : List.Perm (secondaryPool.insertionSort (topOrder post.secondary)) secondaryPool :=
      List.perm_insertionSort _ _
    have sortS : (secondaryPool.insertionSort (topOrder post.secondary)).Sorted
        (topOrder post.secondary) := List.sorted_insertionSort _ _
    have hkmem : k ∈ secondaryPool.insertionSort (topOrder post.secondary) :=
      permS.mem_iff.mpr (mem_secondaryPool.mpr ⟨hk1, hk2⟩)
    rcases h16 : secondaryPool.insertionSort (topOrder post.secondary) with _ | ⟨a, t⟩
    · rw [h16] at hkmem
      exact absurd hkmem (List.not_mem_nil k)
    · have hsec : topSecondary post.secondary = a := by
        unfold topSecondary
        rw [h16]
        rfl
      rw [h16] at hkmem sortS
      have hkt : k ∈ t := by
        rcases List.mem_cons.mp hkmem with h | h
        · exact absurd (h.trans hsec.symm) hk
        · exact h
      have hrel : topOrder post.secondary a k := List.rel_of_sorted_cons sortS k hkt
      rw [hsec]
      rcases hrel with h | ⟨h, hle⟩
      · exact Or.inl h
      · exact Or.inr ⟨h, lt_of_le_of_ne hle fun hak => hk (hak ▸ hsec).symm⟩

/-- Closed witness for C6 over the concrete increasing posterior. -/
theorem buildTop_selects_highest_witness :
    33 ∈ (buildTop wPost).primary ∧ 1 ∉ (buildTop wPost).primary ∧
    (1 : Nat) ≠ (buildTop wPost).secondary ∧
    (wPost.primary 1 < wPost.primary 33 ∨ (wPost.primary 33 = wPost.primary 1 ∧ 33 < 1)) :=
  ⟨by decide, by decide, by decide,
    (buildTop_selects_highest wPost 33 1 1 (by decide) (by decide) (by decide) (by decide)
      (by decide) (by decide) (by decide)).2.2.1⟩

theorem estimate_primary_eq (a : ℚ) (records : List DrawRecord) (n : Nat) :
    (estimate a records).primary n =
      ((primaryCount records n : ℚ) + a) /
        ((∑ m ∈ Finset.Icc 1 33, (primaryCount records m : ℚ)) + 33 * a) := rfl

theorem estimate_secondary_eq (a : ℚ) (records : List DrawRecord) (k : Nat) :
    (estimate a records).secondary k =
      ((secondaryCount records k : ℚ) + a) /
        ((∑ m ∈ Finset.Icc 1 16, (secondaryCount records m : ℚ)) + 16 * a) := rfl

theorem estimate_primary_pos (a : ℚ) (records : List DrawRecord) (ha : 0 < a) (n : Nat) :
    0 < (estimate a records).primary n := by
  rw [estimate_primary_eq]
  have hTP := totalPrimary_nonneg records
  exact div_pos (by positivity) (by nlinarith)

theorem estimate_secondary_pos (a : ℚ) (records : List DrawRecord) (ha : 0 < a) (k : Nat) :
    0 < (estimate a records).secondary k := by
  rw [estimate_secondary_eq]
  have hTS := totalSecondary_nonneg records
  exact div_pos (by positivity) (by nlinarith)

theorem estimate_primary_lt_one (a : ℚ) (records : List DrawRecord) (ha : 0 < a)
    {n : Nat} (hn : n ∈ Finset.Icc 1 33) :
    (estimate a records).primary n < 1 := by
  rw [estimate_primary_eq]
  have hTP := totalPrimary_nonneg records
  have hle := primaryCount_le_total records hn
  rw [div_lt_one (by nlinarith)]
  nlinarith

theorem secondaryCount_le_total (records : List DrawRecord) {k : Nat}
    (hk : k ∈ Finset.Icc 1 16) :
    (secondaryCount records k : ℚ) ≤ ∑ m ∈ Finset.Icc 1 16, (secondaryCount records m : ℚ) :=
  Finset.single_le_sum (f := fun m => (secondaryCount records m : ℚ)) (fun m _ => by positivity) hk

theorem estimate_secondary_lt_one (a : ℚ) (records : List DrawRecord) (ha : 0 < a)
    {k : Nat} (hk : k ∈ Finset.Icc 1 16) :
    (estimate a records).secondary k < 1 := by
  rw [estimate_secondary_eq]
  have hTS := totalSecondary_nonneg records
  have hle := secondaryCount_le_total records hk
  rw [div_lt_one (by nlinarith)]
  nlinarith

theorem listSum_nonpos : ∀ {l : List ℝ}, (∀ x ∈ l, x ≤ 0) → l.sum ≤ 0
  | [], _ => by simp
  | x :: t, h => by
    have hx := h x (List.mem_cons_self x t)
    have ht := listSum_nonpos fun y hy => h y (List.mem_cons_of_mem x hy)
    simpa using add_nonpos hx ht

/-- C7:  For a well-formed candidate and a posterior built by the
estimator's smoothing rule with α > 0, the score is the sum of the logs of
the seven probabilities and is strictly negative. -/
theorem score_is_log_likelihood_and_neg (a : ℚ) (records : List DrawRecord) (c : Candidate)
    (ha : 0 < a) (hc : validCandidate c) :
    score (estimate a records) c =
      (c.primary.map fun n => Real.log ((estimate a records).primary n)).sum +
        Real.log ((estimate a records).secondary c.secondary) ∧
    score (estimate a records) c < 0 := by
  obtain ⟨_hnd, _hlen, hrange, hs1, hs2⟩ := hc
  refine ⟨rfl, ?_⟩
  have hsec : Real.log ((estimate a records).secondary c.secondary) < 0 := by
    have hpos := estimate_secondary_pos a records ha c.secondary
    have hlt := estimate_secondary_lt_one a records ha
      (k := c.secondary) (Finset.mem_Icc.mpr ⟨hs1, hs2⟩)
    have : ((estimate a records).secondary c.secondary : ℝ) < 1 := by
      exact_mod_cast hlt
    exact Real.log_neg (by exact_mod_cast hpos) this
  have hsum : (c.primary.map fun n => Real.log ((estimate a records).primary n)).sum ≤ 0 := by
    refine listSum_nonpos ?_
    intro x hx
    rcases List.mem_map.mp hx with ⟨n, hn, rfl⟩
    have hpos := estimate_primary_pos a records ha n
    have hlt := estimate_primary_lt_one a records ha
      (n := n) (Finset.mem_Icc.mpr ((hrange n hn)))
    have h1 : ((estimate a records).primary n : ℝ) < 1 := by exact_mod_cast hlt
    exact le_of_lt (Real.log_neg (by exact_mod_cast hpos) h1)
  show (c.primary.map fun n => Real.log ((estimate a records).primary n)).sum +
      Real.log ((estimate a records).secondary c.secondary) < 0
  linarith

/-- Closed witness for C7: a concrete candidate scored against the posterior
of the sample dataset. -/
theorem score_is_log_likelihood_and_neg_witness :
    (0 : ℚ) < 1 ∧
    validCandidate { primary := [2, 6, 9, 14, 17, 22], secondary := 16 } ∧
    score (estimate 1 sampleRecords) { primary := [2, 6, 9, 14, 17, 22], secondary := 16 } < 0 :=
  ⟨by norm_num, by decide,
    (score_is_log_likelihood_and_neg 1 sampleRecords
      { primary := [2, 6, 9, 14, 17, 22], secondary := 16 } (by norm_num) (by decide)).2⟩

section Selector

variable {α : Type} [LinearOrderedField α]

theorem pickElim_nil (u : Entry α → α) (e : Entry α) : pickElim u e [] = e := rfl

theorem pickElim_cons (u : Entry α → α) (e g : Entry α) (rest : List (Entry α)) :
    pickElim u e (g :: rest) =
      if u g < u e ∨ (u g = u e ∧ e.idx < g.idx) then pickElim u g rest
      else pickElim u e rest := rfl

theorem pickElim_mem (u : Entry α → α) :
    ∀ (l : List (Entry α)) (e : Entry α), pickElim u e l ∈ e :: l
  | [], e => List.mem_cons_self e []
  | g :: rest, e => by
    rw [pickElim_cons]
    by_cases hc : u g < u e ∨ (u g = u e ∧ e.idx < g.idx)
    · rw [if_pos hc]
      rcases List.mem_cons.mp (pickElim_mem u rest g) with h | h
      · rw [h]
        simp
      · simp [h]
    · rw [if_neg hc]
      rcases List.mem_cons.mp (pickElim_mem u rest e) with h | h
      · rw [h]
        simp
      · simp [h]

theorem pickElim_min (u : Entry α → α) :
    ∀ (l : List (Entry α)) (e : Entry α), ∀ f ∈ e :: l, u (pickElim u e l) ≤ u f
  | [], e => by
    intro f hf
    rcases List.mem_cons.mp hf with h | h
    · rw [pickElim_nil, h]
    · exact absurd h (List.not_mem_nil f)
  | g :: rest, e => by
    intro f hf
    rw [pickElim_cons]
    by_cases hc : u g < u e ∨ (u g = u e ∧ e.idx < g.idx)
    · rw [if_pos hc]
      have hge : u g ≤ u e := by
        rcases hc with h | ⟨h, _⟩
        · exact le_of_lt h
        · exact le_of_eq h
      rcases List.mem_cons.mp hf with h | h
      · rw [h]
        exact le_trans (pickElim_min u rest g g (List.mem_cons_self g rest)) hge
      · exact pickElim_min u rest g f h
    · rw [if_neg hc]
      have hle : u e ≤ u g := by
        rcases not_or.mp hc with ⟨h1, _⟩
        exact le_of_not_lt h1
      rcases List.mem_cons.mp hf with h | h
      · rw [h]
        exact pickElim_min u rest e e (List.mem_cons_self e rest)
      · rcases List.mem_cons.mp h with h2 | h2
        · rw [h2]
          exact le_trans (pickElim_min u rest e e (List.mem_cons_self e rest)) hle
        · exact pickElim_min u rest e f (List.mem_cons_of_mem e h2)

/-- Among entries tied for the minimum utility, `pickElim` keeps the one
with the largest generation index: any other tied entry has a smaller
index. -/
theorem pickElim_tie (u : Entry α → α) :
    ∀ (l : List (Entry α)) (e : Entry α), ((e :: l).map Entry.idx).Nodup →
      ∀ f ∈ e :: l, f ≠ pickElim u e l → u (pickElim u e l) = u f →
        f.idx < (pickElim u e l).idx
  | [], e => by
    intro _ f hf hne _
    rcases List.mem_cons.mp hf with h | h
    · rw [pickElim_nil] at hne
      exact absurd h hne
    · exact absurd h (List.not_mem_nil f)
  | g :: rest, e => by
    intro hnd f hf hne hu
    have hndg : ((g :: rest).map Entry.idx).Nodup := by
      simp only [List.map_cons, List.nodup_cons] at hnd ⊢
      exact ⟨hnd.2.1, hnd.2.2⟩
    have hnde : ((e :: rest).map Entry.idx).Nodup := by
      simp only [List.map_cons, List.nodup_cons, List.mem_cons, not_or] at hnd ⊢
      exact ⟨hnd.1.2, hnd.2.2⟩
    have hidx_eg : e.idx ≠ g.idx := by
      simp only [List.map_cons, List.nodup_cons, List.mem_cons, not_or] at hnd
      exact hnd.1.1
    rw [pickElim_cons] at hne hu ⊢
    by_cases hc : u g < u e ∨ (u g = u e ∧ e.idx < g.idx)
    · rw [if_pos hc] at hne hu ⊢
      rcases List.mem_cons.mp hf with rfl | h
      · rcases hc with hlt | ⟨heq, hei⟩
        · exact absurd hu.symm (ne_of_gt (lt_of_le_of_lt
            (pickElim_min u rest g g (List.mem_cons_self g rest)) hlt))
        · by_cases hgp : g = pickElim u g rest
          · rw [← hgp]
            exact hei
          · exact lt_trans hei (pickElim_tie u rest g hndg g
              (List.mem_cons_self g rest) hgp (by rw [hu, heq]))
      · exact pickElim_tie u rest g hndg f h hne hu
    · rw [if_neg hc] at hne hu ⊢
      rcases not_or.mp hc with ⟨hng, hni⟩
      rcases List.mem_cons.mp hf with rfl | h
      · exact pickElim_tie u rest f hnde f (List.mem_cons_self f rest) hne hu
      · rcases List.mem_cons.mp h with rfl | h2
        · have hule : u e ≤ u f := le_of_not_lt hng
          rcases lt_or_eq_of_le hule with hlt | heq
          · exact absurd hu.symm (ne_of_gt (lt_of_le_of_lt
              (pickElim_min u rest e e (List.mem_cons_self e rest)) hlt))
          · have hgi : f.idx ≤ e.idx := by
              by_contra hgt
              exact hni ⟨heq.symm, lt_of_not_le hgt⟩
            have hgl : f.idx < e.idx := lt_of_le_of_ne hgi fun h => hidx_eg h.symm
            by_cases hep : e = pickElim u e rest
            · rw [← hep]
              exact hgl
            · exact lt_trans hgl (pickElim_tie u rest e hnde e
                (List.mem_cons_self e rest) hep (by rw [hu, ← heq]))
        · exact pickElim_tie u rest e hnde f (List.mem_cons_of_mem e h2) hne hu

theorem elimChoice_nil (b : α) : elimChoice b ([] : List (Entry α)) = none := rfl

theorem elimChoice_cons (b : α) (e : Entry α) (rest : List (Entry α)) :
    elimChoice b (e :: rest) = some (pickElim (utility b (e :: rest)) e rest) := rfl

theorem elimChoice_mem (b : α) {active : List (Entry α)} {e : Entry α}
    (h : elimChoice b active = some e) : e ∈ active := by
  rcases active with _ | ⟨x, rest⟩
  · exact absurd h (by rw [elimChoice_nil]; exact Option.noConfusion)
  · rw [elimChoice_cons] at h
    exact Option.some.inj h ▸ pickElim_mem (utility b (x :: rest)) rest x

theorem eliminateOnce_length (b : α) {active : List (Entry α)} (h : active ≠ []) :
    (eliminateOnce b active).length + 1 = active.length := by
  rcases active with _ | ⟨x, rest⟩
  · exact absurd rfl h
  · have hc := elimChoice_cons b x rest
    have hmem : pickElim (utility b (x :: rest)) x rest ∈ x :: rest :=
      pickElim_mem _ rest x
    unfold eliminateOnce
    rw [hc]
    rw [List.length_eraseP_of_mem hmem (by simp)]
    simp

theorem eliminateOnce_sublist (b : α) (active : List (Entry α)) :
    (eliminateOnce b active).Sublist active := by
  unfold eliminateOnce
  rcases h : elimChoice b active with _ | e
  all_goals first
  | exact List.Sublist.refl active
  | exact List.eraseP_sublist active

theorem selectRounds_sublist (b : α) :
    ∀ (fuel : Nat) (active : List (Entry α)), (selectRounds b fuel active).Sublist active
  | 0, active => List.Sublist.refl active
  | fuel + 1, active => by
    unfold selectRounds
    by_cases h : active.length ≤ 1
    · rw [if_pos h]
    · rw [if_neg h]
      exact (selectRounds_sublist b fuel (eliminateOnce b active)).trans
        (eliminateOnce_sublist b active)

theorem selectRounds_reaches_one (b : α) :
    ∀ (fuel : Nat) (active : List (Entry α)), active ≠ [] → active.length ≤ fuel + 1 →
      (selectRounds b fuel active).length = 1
  | 0, active, hne, hlen => by
    unfold selectRounds
    have : active.length = 1 := by
      have := List.length_pos.mpr hne
      omega
    exact this
  | fuel + 1, active, hne, hlen => by
    unfold selectRounds
    by_cases h : active.length ≤ 1
    · rw [if_pos h]
      have := List.length_pos.mpr hne
      omega
    · rw [if_neg h]
      have hlen' := eliminateOnce_length b hne
      have hne' : eliminateOnce b active ≠ [] := by
        intro hcon
        rw [hcon] at hlen'
        simp at hlen'
        omega
      exact selectRounds_reaches_one b fuel (eliminateOnce b active) hne' (by omega)

theorem overlapPenalty_singleton (e : Entry α) : overlapPenalty [e] e = 0 := by
  unfold overlapPenalty
  simp

theorem competitiveSelect_winner (b : α) (pool : List (Entry α)) (h : pool ≠ []) :
    ∃ w : Entry α, w ∈ pool ∧ competitiveSelect b pool = .ok (w, utility b [w] w) := by
  have hlen : (selectRounds b pool.length pool).length = 1 :=
    selectRounds_reaches_one b pool.length pool h (by omega)
  rcases List.length_eq_one.mp hlen with ⟨w, hw⟩
  refine ⟨w, ?_, ?_⟩
  · have := selectRounds_sublist b pool.length pool
    rw [hw] at this
    exact this.subset (List.mem_singleton_self w)
  · unfold competitiveSelect
    rw [if_neg (by simpa [List.isEmpty_iff] using h), hw]

theorem setSec_idx (e : Entry α) (k : Nat) : (setSec e k).idx = e.idx := rfl

theorem setSec_ll (e : Entry α) (k : Nat) : (setSec e k).ll = e.ll := rfl

theorem overlap_setSec (e f : Entry α) (k k' : Nat) :
    overlap (setSec e k).cand (setSec f k').cand = overlap e.cand f.cand := rfl

theorem utility_singleton (b : α) (w : Entry α) : utility b [w] w = w.ll := by
  unfold utility
  rw [overlapPenalty_singleton]
  simp

/-- C2:  Two independent sample-mode runs over the same posterior with the
same count and seed produce identical candidate sequences: the build is a
function of the posterior, the count and the seed alone, with all randomness
drawn from the one generator initialized from the seed. -/
theorem sample_mode_reproducible (post post' : PosteriorDistribution)
    (count count' seed seed' : Nat)
    (hp : post = post') (hc : count = count') (hs : seed = seed') :
    buildSample post count seed = buildSample post' count' seed' := by
  subst hp
  subst hc
  subst hs
  rfl

/-- Closed witness for C2: two runs at count 2, seed 42. -/
theorem sample_mode_reproducible_witness :
    wPost = wPost ∧ (2 : Nat) = 2 ∧ (42 : Nat) = 42 ∧
    buildSample wPost 2 42 = buildSample wPost 2 42 :=
  ⟨rfl, rfl, rfl, sample_mode_reproducible wPost wPost 2 2 42 42 rfl rfl rfl⟩

/-- C3:  For a non-empty pool: every elimination round removes exactly one
candidate, the procedure reaches a single survivor within pool-size − 1
rounds (so at most `count` rounds for a pool of top + `count` samples), the
survivor is a member of the pool, and the selector reports exactly one
winner. -/
theorem selector_terminates_unique_winner (b : α) (pool : List (Entry α)) (h : pool ≠ []) :
    (∀ active : List (Entry α), active ≠ [] →
      (eliminateOnce b active).length + 1 = active.length) ∧
    (selectRounds b (pool.length - 1) pool).length = 1 ∧
    (∃ w : Entry α, selectRounds b (pool.length - 1) pool = [w] ∧ w ∈ pool) ∧
    (∃ w s, competitiveSelect b pool = .ok (w, s) ∧ w ∈ pool) := by
  have hfuel : pool.length ≤ (pool.length - 1) + 1 := by
    have := List.length_pos.mpr h
    omega
  have hone := selectRounds_reaches_one b (pool.length - 1) pool h hfuel
  refine ⟨fun active hne => eliminateOnce_length b hne, hone, ?_, ?_⟩
  · rcases List.length_eq_one.mp hone with ⟨w, hw⟩
    refine ⟨w, hw, ?_⟩
    have hsub := selectRounds_sublist b (pool.length - 1) pool
    rw [hw] at hsub
    exact hsub.subset (List.mem_singleton_self w)
  · rcases competitiveSelect_winner b pool h with ⟨w, hmem, hok⟩
    exact ⟨w, utility b [w] w, hok, hmem⟩

/-- Closed witness for C3 on a concrete three-entry pool. -/
theorem selector_terminates_unique_winner_witness :
    ([wEntry0, wEntry1, wEntry2] : List (Entry ℚ)) ≠ [] ∧
    (selectRounds (1 : ℚ) ([wEntry0, wEntry1, wEntry2].length - 1)
      [wEntry0, wEntry1, wEntry2]).length = 1 :=
  ⟨by simp, (selector_terminates_unique_winner 1 [wEntry0, wEntry1, wEntry2] (by simp)).2.1⟩

/-- C4:  The adjusted utility is U(i) = log_likelihood(i) − β·overlap_penalty(i)
with the penalty summing the shared primary counts over all other active
candidates; a peer identical in all 6 primary numbers contributes 6; and the
secondary numbers contribute nothing: rewriting every candidate's secondary
number leaves every utility unchanged. -/
theorem adjusted_utility_formula (b : α) (active : List (Entry α)) (e f : Entry α)
    (hb : 0 ≤ b) (hf : f ∈ active) (hfi : f.idx ≠ e.idx)
    (hsame : f.cand.primary = e.cand.primary) (hlen : e.cand.primary.length = 6) :
    utility b active e =
      e.ll - b * (((active.filter (fun g => g.idx ≠ e.idx)).map
        (fun g => overlap e.cand g.cand)).sum : α) ∧
    overlap e.cand f.cand = 6 ∧
    (∀ g : Entry α → Nat,
      utility b (active.map fun x => setSec x (g x)) (setSec e (g e)) =
        utility b active e) := by
  refine ⟨rfl, ?_, ?_⟩
  · unfold overlap
    rw [hsame, List.filter_eq_self.mpr fun a ha => by simpa using ha]
    exact hlen
  · intro g
    unfold utility overlapPenalty
    rw [setSec_ll]
    congr 2
    simp only [setSec_idx, overlap_setSec, List.filter_map, List.map_map,
      Function.comp_def]

/-- Closed witness for C4: two identical-primary entries, β = 2. -/
theorem adjusted_utility_formula_witness :
    (0 : ℚ) ≤ 2 ∧ wEntry1 ∈ [wEntry0, wEntry1] ∧ wEntry1.idx ≠ wEntry0.idx ∧
    wEntry1.cand.primary = wEntry0.cand.primary ∧ wEntry0.cand.primary.length = 6 ∧
    overlap wEntry0.cand wEntry1.cand = 6 :=
  ⟨by norm_num, by simp, by decide, by decide, by decide,
    (adjusted_utility_formula 2 [wEntry0, wEntry1] wEntry0 wEntry1 (by norm_num)
      (by simp) (by decide) (by decide) (by decide)).2.1⟩

/-- C5:  When several active candidates tie for the minimum adjusted
utility, the eliminated one is never an earlier-generated tied candidate: an
entry that ties with a larger-indexed entry and attains the minimum is not
the elimination choice, and the actual choice is itself tied for the
minimum.  In particular the top candidate (index 0) survives any tie. -/
theorem tie_break_favors_earlier (b : α) (active : List (Entry α))
    (hnd : (active.map Entry.idx).Nodup) (e f : Entry α)
    (he : e ∈ active) (hf : f ∈ active)
    (hU : utility b active e = utility b active f) (hidx : e.idx < f.idx)
    (hmin : ∀ g ∈ active, utility b active e ≤ utility b active g) :
    elimChoice b active ≠ some e ∧
    (∃ w, elimChoice b active = some w ∧ w ≠ e ∧
      utility b active w = utility b active e) := by
  rcases active with _ | ⟨x, rest⟩
  · exact absurd he (List.not_mem_nil e)
  · rw [elimChoice_cons]
    set u := utility b (x :: rest) with hu_def
    have hpmem : pickElim u x rest ∈ x :: rest := pickElim_mem u rest x
    have hpmin : u (pickElim u x rest) ≤ u e := pickElim_min u rest x e he
    have hpeq : u (pickElim u x rest) = u e := le_antisymm hpmin (hmin _ hpmem)
    have hne : pickElim u x rest ≠ e := by
      intro hcon
      have hfne : f ≠ pickElim u x rest := by
        intro hcon2
        rw [hcon] at hcon2
        rw [hcon2] at hidx
        exact lt_irrefl _ hidx
      have := pickElim_tie u rest x hnd f hf hfne (by rw [hpeq, hU])
      rw [hcon] at this
      omega
    exact ⟨fun hcon => hne (Option.some.inj hcon),
      pickElim u x rest, rfl, hne, hpeq⟩

/-- Closed witness for C5: two entries tied at the minimum; the
earlier-generated entry 0 is not eliminated. -/
theorem tie_break_favors_earlier_witness :
    (([wEntry0, wEntry1] : List (Entry ℚ)).map Entry.idx).Nodup ∧
    utility (0 : ℚ) [wEntry0, wEntry1] wEntry0 = utility 0 [wEntry0, wEntry1] wEntry1 ∧
    wEntry0.idx < wEntry1.idx ∧
    elimChoice (0 : ℚ) [wEntry0, wEntry1] ≠ some wEntry0 :=
  ⟨by decide, by norm_num [utility, wEntry0, wEntry1], by decide,
    (tie_break_favors_earlier 0 [wEntry0, wEntry1] (by decide) wEntry0 wEntry1
      (by simp) (by simp) (by norm_num [utility, wEntry0, wEntry1]) (by decide)
      (by
        intro g hg
        fin_cases hg <;> norm_num [utility, wEntry0, wEntry1])).1⟩

/-- C8:  The winner's published score is the utility computed in the round
it became sole survivor: with no other active candidate its overlap penalty
is 0, so the reported score equals its raw log-likelihood. -/
theorem winner_score_is_raw_log_likelihood (b : α) (pool : List (Entry α)) (h : pool ≠ []) :
    ∃ w : Entry α, w ∈ pool ∧ competitiveSelect b pool = .ok (w, w.ll) ∧
      overlapPenalty [w] w = 0 := by
  rcases competitiveSelect_winner b pool h with ⟨w, hmem, hok⟩
  rw [utility_singleton] at hok
  exact ⟨w, hmem, hok, overlapPenalty_singleton w⟩

/-- Closed witness for C8 on a concrete two-entry pool. -/
theorem winner_score_is_raw_log_likelihood_witness :
    ([wEntry0, wEntry2] : List (Entry ℚ)) ≠ [] ∧
    (∃ w : Entry ℚ, w ∈ [wEntry0, wEntry2] ∧
      competitiveSelect (1 : ℚ) [wEntry0, wEntry2] = .ok (w, w.ll) ∧
      overlapPenalty [w] w = 0) :=
  ⟨by simp, winner_score_is_raw_log_likelihood 1 [wEntry0, wEntry2] (by simp)⟩

end Selector

/-- C9:  `load` fails with `dataFormatError` exactly when some record has
fewer than 6 distinct primary numbers, a primary number outside [1,33], or a
secondary number outside [1,16]; it fails with `emptyDatasetError` exactly
when no record is present; and the selector on an empty pool fails with
`invalidPoolError`. -/
theorem error_taxonomy (rs : List RawRecord) :
    (load rs = .error .dataFormatError ↔ ∃ r ∈ rs, validRecord r = false) ∧
    (load rs = .error .emptyDatasetError ↔ rs = []) ∧
    (∀ b : ℚ, competitiveSelect b ([] : List (Entry ℚ)) = .error .invalidPoolError) := by
  refine ⟨?_, ?_, fun b => rfl⟩
  · unfold load
    by_cases hall : rs.all validRecord
    · rw [if_pos hall]
      rw [List.all_eq_true] at hall
      constructor
      · intro h
        split_ifs at h
        all_goals simp at h
      · rintro ⟨r, hr, hv⟩
        exact absurd (hall r hr) (by simp [hv])
    · rw [if_neg hall]
      rw [List.all_eq_true] at hall
      push_neg at hall
      rcases hall with ⟨r, hr, hv⟩
      exact iff_of_true rfl ⟨r, hr, by simpa using hv⟩
  · unfold load
    by_cases hall : rs.all validRecord
    · rw [if_pos hall]
      by_cases hemp : rs.isEmpty
      · rw [if_pos hemp]
        exact iff_of_true rfl (List.isEmpty_iff.mp hemp)
      · rw [if_neg hemp]
        constructor
        · intro h
          exact absurd h (by simp)
        · intro h
          exact absurd (List.isEmpty_iff.mpr h) hemp
    · rw [if_neg hall]
      constructor
      · intro h
        exact absurd h (by simp)
      · rintro rfl
        exact absurd (by simp) hall

/-- Closed witness for C9: the empty dataset yields `emptyDatasetError`. -/
theorem error_taxonomy_witness :
    load [] = .error .emptyDatasetError ∧
    competitiveSelect (1 : ℚ) ([] : List (Entry ℚ)) = .error .invalidPoolError :=
  ⟨((error_taxonomy []).2.1).mpr rfl, (error_taxonomy []).2.2 1⟩

end Ssq

namespace NumberSelector

theorem redNumbers_nodup : redNumbers.Nodup :=
  (List.nodup_range 33).map fun _ _ => by omega

theorem mem_redNumbers {m : Nat} : m ∈ redNumbers ↔ 1 ≤ m ∧ m ≤ 33 := by
  simp only [redNumbers, List.mem_map, List.mem_range]
  constructor
  · rintro ⟨a, ha, rfl⟩
    omega
  · intro h
    exact ⟨m - 1, by omega, by omega⟩

theorem mem_blueNumbers {m : Nat} : m ∈ blueNumbers ↔ 1 ≤ m ∧ m ≤ 16 := by
  simp only [blueNumbers, List.mem_map, List.mem_range]
  constructor
  · rintro ⟨a, ha, rfl⟩
    omega
  · intro h
    exact ⟨m - 1, by omega, by omega⟩

theorem blueNumbers_getD_bounds (bi : Nat) (h : bi < 16) :
    1 ≤ blueNumbers.getD bi 1 ∧ blueNumbers.getD bi 1 ≤ 16 := by
  interval_cases bi <;> decide

theorem redNumbers_length : redNumbers.length = 33 := rfl

theorem inv_initState : Inv initState := by
  refine ⟨List.nodup_nil, List.sorted_nil, by simp [initState], ?_⟩
  intro b hb
  simp [initState] at hb

/-- Every valid interaction preserves the selection invariant. -/
theorem inv_step (disabled : Bool) (a : Action) (s : SelState)
    (hs : Inv s) (ha : ValidAction a) : Inv (step disabled a s) := by
  obtain ⟨hnd, hsort, hlen, hblue⟩ := hs
  cases disabled
  · show Inv (step false a s)
    cases a with
    | redClick n =>
      show Inv (redBallClick n s)
      unfold redBallClick
      by_cases hmem : n ∈ s.redBalls
      · rw [if_pos hmem]
        have hsub : (s.redBalls.filter (fun m => m ≠ n)).Sublist s.redBalls :=
          List.filter_sublist s.redBalls
        exact ⟨hsub.nodup hnd, hsort.sublist hsub,
          le_trans (List.length_filter_le _ _) hlen, hblue⟩
      · rw [if_neg hmem]
        by_cases h6 : 6 ≤ s.redBalls.length
        · rw [if_pos h6]
          exact ⟨hnd, hsort, hlen, hblue⟩
        · rw [if_neg h6]
          have hperm : List.Perm ((s.redBalls ++ [n]).insertionSort (· ≤ ·))
              (s.redBalls ++ [n]) := List.perm_insertionSort _ _
          refine ⟨?_, List.sorted_insertionSort _ _, ?_, hblue⟩
          · refine hperm.nodup_iff.mpr ?_
            simp [List.nodup_append, hnd, hmem]
          · rw [hperm.length_eq, List.length_append]
            simp only [List.length_singleton]
            omega
    | blueClick n =>
      show Inv (blueBallClick n s)
      unfold blueBallClick
      refine ⟨hnd, hsort, hlen, ?_⟩
      intro b hb
      by_cases hcur : s.blueBall = some n
      · rw [if_pos hcur] at hb
        exact absurd hb (by simp)
      · rw [if_neg hcur] at hb
        have hfin : n = b := by simpa using hb
        rw [← hfin]
        exact mem_blueNumbers.mp ha
    | quickPick sh bi =>
      obtain ⟨hperm, hbi⟩ := ha
      show Inv (quickPick sh bi s)
      unfold quickPick
      have hpermSort : List.Perm ((sh.take 6).insertionSort (· ≤ ·)) (sh.take 6) :=
        List.perm_insertionSort _ _
      have hshnd : sh.Nodup := hperm.nodup_iff.mpr redNumbers_nodup
      refine ⟨hpermSort.nodup_iff.mpr ((List.take_sublist _ _).nodup hshnd),
        List.sorted_insertionSort _ _, ?_, ?_⟩
      · rw [hpermSort.length_eq, List.length_take, hperm.length_eq, redNumbers_length]
        omega
      · intro b hb
        have hbv : some (blueNumbers.getD bi 1) = some b := hb
        rw [← Option.some.inj hbv]
        exact blueNumbers_getD_bounds bi hbi
    | clear =>
      show Inv (clear s)
      refine ⟨List.nodup_nil, List.sorted_nil, by simp [clear], ?_⟩
      intro b hb
      simp [clear] at hb
  · show Inv s
    exact ⟨hnd, hsort, hlen, hblue⟩

theorem inv_run (disabled : Bool) :
    ∀ (acts : List Action) (s : SelState), Inv s → (∀ a ∈ acts, ValidAction a) →
      Inv (run disabled acts s)
  | [], s, hs, _ => hs
  | a :: rest, s, hs, hval => by
    show Inv (run disabled rest (step disabled a s))
    exact inv_run disabled rest (step disabled a s)
      (inv_step disabled a s hs (hval a (List.mem_cons_self a rest)))
      fun x hx => hval x (List.mem_cons_of_mem a hx)

/-- C10:  Starting from the empty selection, after any sequence of valid
interactions the selected red balls are pairwise distinct, sorted ascending
and at most 6, the blue ball is unset or a single number in [1,16], and a
click on a seventh not-yet-selected red number leaves the state unchanged. -/
theorem selection_invariant (disabled : Bool) (acts : List Action)
    (hval : ∀ a ∈ acts, ValidAction a) :
    Inv (run disabled acts initState) ∧
    (∀ (s : SelState) (n : Nat), s.redBalls.length = 6 → n ∉ s.redBalls →
      step false (Action.redClick n) s = s) := by
  refine ⟨inv_run disabled acts initState inv_initState hval, ?_⟩
  intro s n hlen hmem
  show redBallClick n s = s
  unfold redBallClick
  rw [if_neg hmem, if_pos (by omega)]

/-- Closed witness for C10: a concrete interaction sequence with a red
click, a blue click, a quick pick and a clear, plus a seventh-click no-op at
a full selection. -/
theorem selection_invariant_witness :
    (∀ a ∈ [Action.redClick 5, Action.blueClick 3,
        Action.quickPick (redNumbers.reverse) 2, Action.clear], ValidAction a) ∧
    Inv (run false [Action.redClick 5, Action.blueClick 3,
        Action.quickPick (redNumbers.reverse) 2, Action.clear] initState) ∧
    step false (Action.redClick 7)
        { redBalls := [1, 2, 3, 4, 5, 6], blueBall := none } =
      { redBalls := [1, 2, 3, 4, 5, 6], blueBall := none } := by
  have h := selection_invariant false
    [Action.redClick 5, Action.blueClick 3,
      Action.quickPick (redNumbers.reverse) 2, Action.clear]
    (by
      intro a ha
      fin_cases ha
      · exact mem_redNumbers.mpr (by omega)
      · exact mem_blueNumbers.mpr (by omega)
      · exact ⟨(List.reverse_perm redNumbers), by omega⟩
      · exact trivial)
  exact ⟨(by
    intro a ha
    fin_cases ha
    · exact mem_redNumbers.mpr (by omega)
    · exact mem_blueNumbers.mpr (by omega)
    · exact ⟨(List.reverse_perm redNumbers), by omega⟩
    · exact trivial), h.1,
    h.2 { redBalls := [1, 2, 3, 4, 5, 6], blueBall := none } 7 (by decide) (by decide)⟩

end NumberSelector
